import Mathlib

/-!
# Verification of the EAB invasive-species grid simulation

Shallow embedding of the notebook `Mesa_invasive_species_practice.ipynb`:
an `Ash_Tree` agent class (fields `unique_id`, `pos`, `condition`) on a
non-toroidal `SingleGrid`, a `Forest` model that places `int(width*height*
tree_density)` trees on shuffled distinct cells (column `x = 0` starts
`"Infected"`, all others `"Healthy"`), a `RandomActivation` scheduler that
visits every agent once per step in a shuffled order, a data collector that
appends `(Healthy, Infected, Dead)` counts after each step, and a driver
`run_model` that steps until `running` becomes false or `max_steps`
iterations have run.

Modelling conventions:
* Python strings `"Healthy"/"Infected"/"Dead"` become the inductive
  `Condition` (`Healthy` plays the spec's Susceptible, `Dead` the spec's
  Removed).
* The mutable agent objects of the schedule become a `List Ash_Tree`; object
  identity is the `unique_id` field (unique by construction: ids `0..n-1`).
* `mesa.space.SingleGrid.get_neighbors(pos, moore=True,
  include_center=False)` returns the occupants of the 8 Moore-adjacent
  cells; since every placed agent's position is a grid cell, this is the
  sublist of agents whose position differs from `pos` and is within
  Chebyshev distance 1.
* Python `int(x)` on a number is truncation toward zero; `tree_density` is
  embedded as an exact rational.
* The external seedable random source (Python's `random` module, used for
  the initial position shuffle and the per-step visitation order) is
  modelled from the spec as a deterministic seedable generator driving a
  pick-and-remove shuffle; theorems about the core quantify over arbitrary
  shuffled lists / visitation orders, so nothing depends on the concrete
  generator.
-/

/-- Health condition of an ash tree (`self.condition`); `Healthy` is the
spec's Susceptible and `Dead` the spec's Removed. -/
inductive Condition where
  | Healthy
  | Infected
  | Dead
deriving DecidableEq

/-- One `Ash_Tree` agent: `unique_id`, grid position, health condition.
Agents never move, so `pos` is fixed at creation. -/
structure Ash_Tree where
  id : Nat
  pos : Int × Int
  cond : Condition
deriving DecidableEq

/-- `q` is one of the 8 Moore-adjacent cells of `p`: distinct from `p` and
within Chebyshev distance 1 (non-toroidal, `include_center=False`). -/
def isMooreNeighbor (p q : Int × Int) : Bool :=
  decide (¬ q = p) && decide ((p.1 - q.1).natAbs ≤ 1) &&
    decide ((p.2 - q.2).natAbs ≤ 1)

/-- `self.model.grid.get_neighbors(self.pos, moore=True,
include_center=False)`: the agents occupying the 8 Moore-adjacent cells of
`p` (every grid occupant is an `Ash_Tree`, so the notebook's `isinstance`
test is always true). -/
def getNeighbors (trees : List Ash_Tree) (p : Int × Int) : List Ash_Tree :=
  trees.filter (fun t => isMooreNeighbor p t.pos)

/-- Assignment `tree.condition = c` to the agent object with id `tid`. -/
def setCond (trees : List Ash_Tree) (tid : Nat) (c : Condition) : List Ash_Tree :=
  trees.map (fun t => if t.id = tid then { t with cond := c } else t)

/-- Read `tree.condition` of the agent object with id `tid`. -/
def condOf (trees : List Ash_Tree) (tid : Nat) : Option Condition :=
  (trees.find? (fun t => t.id == tid)).map (fun t => t.cond)

/-- One iteration of the neighbor loop in `maybe_spread_infection`:
`if neighbor.condition == "Healthy": neighbor.condition = "Infected"`
(the condition is read live, at loop time). -/
def spreadTo (trees : List Ash_Tree) (nbId : Nat) : List Ash_Tree :=
  if condOf trees nbId = some Condition.Healthy then
    setCond trees nbId Condition.Infected
  else trees

/-- `Ash_Tree.step` / `Ash_Tree.maybe_spread_infection` for the agent with
id `aid`: if its condition is `Infected`, loop over its Moore neighbors
turning `Healthy` ones `Infected`, then set its own condition to `Dead`;
otherwise do nothing. -/
def visit (trees : List Ash_Tree) (aid : Nat) : List Ash_Tree :=
  match trees.find? (fun t => t.id == aid) with
  | none => trees
  | some a =>
    if a.cond = Condition.Infected then
      setCond (((getNeighbors trees a.pos).map (fun t => t.id)).foldl
        spreadTo trees) aid Condition.Dead
    else trees

/-- The agent ids are pairwise distinct (holds for every model state:
trees are created with ids `0, 1, ..., n-1` and ids never change). -/
abbrev NodupIds (trees : List Ash_Tree) : Prop :=
  (trees.map (fun t => t.id)).Nodup

/-- `mesa.time.RandomActivation.step()`: visit every agent exactly once,
in the given order (a shuffle of the snapshot of agent ids taken at step
start; no agent is added or removed mid-run, so the snapshot is all ids). -/
def stepAgents (order : List Nat) (trees : List Ash_Tree) : List Ash_Tree :=
  order.foldl visit trees

/-- `Forest.count_type(model, c)`: loop over `model.schedule.agents`
counting those whose condition equals `c`. -/
def countType (trees : List Ash_Tree) (c : Condition) : Nat :=
  match trees with
  | [] => 0
  | t :: rest => (if t.cond = c then 1 else 0) + countType rest c

/-- The `Forest` model state: the scheduler's agent list (in creation
order), the data collector's rows `(Healthy, Infected, Dead)`, and the
`running` flag. -/
structure Forest where
  trees : List Ash_Tree
  history : List (Nat × Nat × Nat)
  running : Bool
deriving DecidableEq

/-- `Forest.step()`: run the scheduler over all agents in the given
visitation order, append the collected counts, then clear `running` if the
Infected count is zero. -/
def stepForest (order : List Nat) (f : Forest) : Forest :=
  let trees := stepAgents order f.trees
  { trees := trees
    history := f.history ++
      [(countType trees Condition.Healthy, countType trees Condition.Infected,
        countType trees Condition.Dead)]
    running := if countType trees Condition.Infected = 0 then false
      else f.running }

/-- The driver loop of `run_model`, one visitation order per potential
step: `for i in range(max_steps): if not model.running: break;
model.step()`.  The length of `orders` is the `max_steps` budget. -/
def runSteps (orders : List (List Nat)) (f : Forest) : Forest :=
  match orders with
  | [] => f
  | o :: rest => if f.running then runSteps rest (stepForest o f) else f

/-- `[(x, y) for x in range(self.width) for y in range(self.height)]`
(Python `range` of a non-positive bound is empty). -/
def allPositions (w h : Int) : List (Int × Int) :=
  (List.range w.toNat).flatMap
    (fun (x : Nat) => (List.range h.toNat).map
      (fun (y : Nat) => ((x : Int), (y : Int))))

/-- `num_of_agents = int(self.width * self.height * self.tree_density)`:
Python `int()` truncates toward zero.  With the density as the exact
rational `d.num / d.den` the product is `(w * h * d.num) / d.den`, and its
truncation toward zero is `Int.tdiv` (the denominator is positive).
`numAgents_eq_floor` below relates this to the rational floor. -/
def numAgents (w h : Int) (d : ℚ) : Int :=
  Int.tdiv (w * h * d.num) (d.den : Int)

/-- The position is inside the `width × height` grid (mesa's
`out_of_bounds` test). -/
def inBounds (w h : Int) (p : Int × Int) : Bool :=
  decide (0 ≤ p.1) && decide (p.1 < w) && decide (0 ≤ p.2) && decide (p.2 < h)

/-- The creation loop `for i in range(num_of_agents)`: tree `i` is placed
at the `i`-th shuffled position, `Infected` when `x == 0`, else
`Healthy`. -/
def mkTrees (i : Nat) (ps : List (Int × Int)) : List Ash_Tree :=
  match ps with
  | [] => []
  | p :: rest =>
    ⟨i, p, if p.1 = 0 then Condition.Infected else Condition.Healthy⟩ ::
      mkTrees (i + 1) rest

/-- `Forest.__init__(width, height, tree_density)`, parametrized by the
shuffled position list produced by the run's random source.
`num_of_agents = int(width*height*tree_density)`; creation fails (Python
exception, `none`) when the loop indexes past the shuffled list
(`IndexError`), or placement hits an occupied or out-of-bounds cell
(`SingleGrid.place_agent` raises).  No parameter validation is performed.
The fresh model has an empty collector history and `running = True`. -/
def forestInit (w h : Int) (d : ℚ) (shuffled : List (Int × Int)) :
    Option Forest :=
  let n := (numAgents w h d).toNat
  let chosen := shuffled.take n
  if n ≤ shuffled.length ∧ chosen.Nodup ∧ chosen.all (inBounds w h) then
    some { trees := mkTrees 0 chosen, history := [], running := true }
  else none

/-- Modelled from the spec: the state of the external seedable random
source (spec §6; the notebook uses Python's global Mersenne Twister via
`mesa`, whose exact stream is outside the repository).  A linear
congruential generator stands in for it. -/
def lcgNext (g : Nat) : Nat :=
  (1103515245 * g + 12345) % 2 ^ 31

/-- Modelled from the spec: one pick-and-remove round of the random
source's shuffle operation, with fuel for termination. -/
def shuffleAux {α : Type} (fuel : Nat) (g : Nat) (l : List α) :
    List α × Nat :=
  match fuel with
  | 0 => (l, g)
  | fuel + 1 =>
    match l with
    | [] => ([], g)
    | a :: rest =>
      let i := g % (a :: rest).length
      let x := (a :: rest).getD i a
      let l' := (a :: rest).eraseIdx i
      let res := shuffleAux fuel (lcgNext g) l'
      (x :: res.1, res.2)

/-- Modelled from the spec: the random source's shuffle operation
(`self.random.shuffle`), returning the shuffled list and the advanced
generator state. -/
def shuffleL {α : Type} (g : Nat) (l : List α) : List α × Nat :=
  shuffleAux l.length g l

/-- The body of `run_model`'s loop, threading the random source: each
executed step visits the agents in a fresh shuffle of the scheduler's id
list (`RandomActivation.agent_buffer(shuffled=True)`). -/
def runModelLoop (fuel : Nat) (g : Nat) (f : Forest) : Forest :=
  match fuel with
  | 0 => f
  | n + 1 =>
    if f.running then
      let res := shuffleL g (f.trees.map (fun t => t.id))
      runModelLoop n res.2 (stepForest res.1 f)
    else f

/-- `run_model(width, height, tree_density, max_steps)` with an explicit
seed for the run's random source: build the model (shuffling the position
list), run at most `max_steps` steps, return the collected history. -/
def runModel (w h : Int) (d : ℚ) (maxSteps : Int) (seed : Nat) :
    Option (List (Nat × Nat × Nat)) :=
  let s := shuffleL seed (allPositions w h)
  (forestInit w h d s.1).map
    (fun f0 => (runModelLoop maxSteps.toNat s.2 f0).history)

/-- A single observed change of one agent's condition: unchanged,
Susceptible→Infected, or Infected→Removed. -/
def CondStep (c c' : Condition) : Prop :=
  c' = c ∨ (c = Condition.Healthy ∧ c' = Condition.Infected) ∨
    (c = Condition.Infected ∧ c' = Condition.Dead)

instance (c c' : Condition) : Decidable (CondStep c c') := by
  unfold CondStep
  infer_instance

/-! ## Basic facts about a single visit -/

theorem setCond_shape (l : List Ash_Tree) (tid : Nat) (c : Condition) :
    (setCond l tid c).map (fun t => (t.id, t.pos)) =
      l.map (fun t => (t.id, t.pos)) := by
  unfold setCond
  rw [List.map_map]
  refine List.map_congr_left ?_
  intro t _
  by_cases h : t.id = tid <;> simp [h, Function.comp]

theorem spreadTo_shape (l : List Ash_Tree) (nbId : Nat) :
    (spreadTo l nbId).map (fun t => (t.id, t.pos)) =
      l.map (fun t => (t.id, t.pos)) := by
  unfold spreadTo
  split
  · exact setCond_shape l nbId Condition.Infected
  · rfl

theorem foldl_spreadTo_shape (ids : List Nat) (l : List Ash_Tree) :
    ((ids.foldl spreadTo l).map (fun t => (t.id, t.pos))) =
      l.map (fun t => (t.id, t.pos)) := by
  induction ids generalizing l with
  | nil => rfl
  | cons i ids ih =>
    rw [List.foldl_cons, ih, spreadTo_shape]

theorem visit_shape (l : List Ash_Tree) (aid : Nat) :
    (visit l aid).map (fun t => (t.id, t.pos)) =
      l.map (fun t => (t.id, t.pos)) := by
  unfold visit
  split
  · rfl
  · split
    · rw [setCond_shape, foldl_spreadTo_shape]
    · rfl

theorem stepAgents_shape (order : List Nat) (l : List Ash_Tree) :
    ((stepAgents order l).map (fun t => (t.id, t.pos))) =
      l.map (fun t => (t.id, t.pos)) := by
  induction order generalizing l with
  | nil => rfl
  | cons i ids ih =>
    rw [stepAgents, List.foldl_cons]
    rw [show List.foldl visit (visit l i) ids = stepAgents ids (visit l i)
      from rfl]
    rw [ih, visit_shape]

theorem map_id_of_shape {l l' : List Ash_Tree}
    (h : l'.map (fun t => (t.id, t.pos)) = l.map (fun t => (t.id, t.pos))) :
    l'.map (fun t => t.id) = l.map (fun t => t.id) := by
  have h2 := congrArg (List.map Prod.fst) h
  simpa [List.map_map, Function.comp] using h2

theorem length_of_shape {l l' : List Ash_Tree}
    (h : l'.map (fun t => (t.id, t.pos)) = l.map (fun t => (t.id, t.pos))) :
    l'.length = l.length := by
  have h2 := congrArg List.length h
  simpa using h2

theorem eq_of_mem_of_id_eq {l : List Ash_Tree} {t s : Ash_Tree}
    (hn : NodupIds l) (ht : t ∈ l) (hs : s ∈ l) (h : t.id = s.id) : t = s :=
  List.inj_on_of_nodup_map hn ht hs h

theorem find?_of_mem_nodup {l : List Ash_Tree} (hn : NodupIds l)
    {t : Ash_Tree} (ht : t ∈ l) :
    l.find? (fun s => s.id == t.id) = some t := by
  induction l with
  | nil => cases ht
  | cons a rest ih =>
    have hn' : a.id ∉ rest.map (fun s => s.id) ∧ NodupIds rest := by
      simpa [NodupIds, List.nodup_cons] using hn
    rcases List.mem_cons.mp ht with rfl | hmem
    · simp [List.find?_cons]
    · have hna : ¬ a.id = t.id := by
        intro he
        exact hn'.1 (he ▸ List.mem_map_of_mem _ hmem)
      rw [List.find?_cons_of_neg _ (by simpa using hna)]
      exact ih hn'.2 hmem

theorem condOf_of_mem_nodup {l : List Ash_Tree} (hn : NodupIds l)
    {t : Ash_Tree} (ht : t ∈ l) : condOf l t.id = some t.cond := by
  rw [condOf, find?_of_mem_nodup hn ht]
  rfl

theorem find?_map_of_id_pres {g : Ash_Tree → Ash_Tree}
    (hg : ∀ t, (g t).id = t.id) (l : List Ash_Tree) (x : Nat) :
    (l.map g).find? (fun t => t.id == x) =
      (l.find? (fun t => t.id == x)).map g := by
  induction l with
  | nil => rfl
  | cons a rest ih =>
    by_cases h : a.id = x
    · rw [List.map_cons, List.find?_cons_of_pos _ (by simpa [hg] using h),
        List.find?_cons_of_pos _ (by simpa using h)]
      rfl
    · rw [List.map_cons, List.find?_cons_of_neg _ (by simpa [hg] using h),
        List.find?_cons_of_neg _ (by simpa using h), ih]

theorem nodupIds_of_shape {l l' : List Ash_Tree}
    (h : l'.map (fun t => (t.id, t.pos)) = l.map (fun t => (t.id, t.pos)))
    (hn : NodupIds l) : NodupIds l' := by
  rw [NodupIds, map_id_of_shape h]
  exact hn

/-- The neighbor-infection loop of `maybe_spread_infection`, run over any
list of agent ids, sends each `Healthy` agent whose id occurs in the list
to `Infected` and changes nothing else. -/
theorem foldl_spreadTo_eq (ids : List Nat) (l : List Ash_Tree)
    (hn : NodupIds l) :
    ids.foldl spreadTo l = l.map (fun t =>
      if t.id ∈ ids ∧ t.cond = Condition.Healthy
        then { t with cond := Condition.Infected } else t) := by
  induction ids generalizing l with
  | nil =>
    have : ∀ t ∈ l,
        (if t.id ∈ ([] : List Nat) ∧ t.cond = Condition.Healthy
          then { t with cond := Condition.Infected } else t) = t := by
      intro t _
      simp
    rw [List.foldl_nil, List.map_congr_left this, List.map_id']
  | cons i ids ih =>
    rw [List.foldl_cons]
    have hshape := spreadTo_shape l i
    have hn' : NodupIds (spreadTo l i) := nodupIds_of_shape hshape hn
    rw [ih _ hn']
    by_cases hc : condOf l i = some Condition.Healthy
    · obtain ⟨a, hfind, hacond⟩ := Option.map_eq_some'.mp hc
      have haid : a.id = i := by simpa using List.find?_some hfind
      have hamem : a ∈ l := List.mem_of_find?_eq_some hfind
      rw [spreadTo, if_pos hc, setCond, List.map_map]
      refine List.map_congr_left ?_
      intro t htl
      by_cases hti : t.id = i
      · have hteq : t = a :=
          eq_of_mem_of_id_eq hn htl hamem (by rw [hti, haid])
        have htcond : t.cond = Condition.Healthy := hteq ▸ hacond
        simp [Function.comp, hti, htcond]
      · simp [Function.comp, hti, List.mem_cons]
    · rw [spreadTo, if_neg hc]
      refine List.map_congr_left ?_
      intro t htl
      by_cases hti : t.id = i
      · have hcond : ¬ t.cond = Condition.Healthy := by
          intro hh
          exact hc (by rw [← hti, condOf_of_mem_nodup hn htl, hh])
        simp [hti, hcond]
      · simp [hti, List.mem_cons]

/-- Characterization of one agent visit (`Ash_Tree.step`): if the visited
agent `a` is `Infected`, it becomes `Dead` and every `Healthy` agent on a
Moore-adjacent cell becomes `Infected`; every other agent is unchanged.
If `a` is not `Infected`, nothing changes. -/
theorem visit_char {l : List Ash_Tree} {aid : Nat} {a : Ash_Tree}
    (hn : NodupIds l) (hfind : l.find? (fun t => t.id == aid) = some a) :
    visit l aid = if a.cond = Condition.Infected
      then l.map (fun t =>
        if t.id = aid then { t with cond := Condition.Dead }
        else if isMooreNeighbor a.pos t.pos = true ∧
            t.cond = Condition.Healthy
          then { t with cond := Condition.Infected } else t)
      else l := by
  have hmem_a : a ∈ l := List.mem_of_find?_eq_some hfind
  have haid : a.id = aid := by simpa using List.find?_some hfind
  unfold visit
  rw [hfind]
  show (if a.cond = Condition.Infected
      then setCond (((getNeighbors l a.pos).map (fun t => t.id)).foldl
        spreadTo l) aid Condition.Dead
      else l) = _
  by_cases hI : a.cond = Condition.Infected
  · rw [if_pos hI, if_pos hI, foldl_spreadTo_eq _ _ hn, setCond, List.map_map]
    refine List.map_congr_left ?_
    intro t htl
    by_cases hta : t.id = aid
    · have hteq : t = a :=
        eq_of_mem_of_id_eq hn htl hmem_a (by rw [hta, haid])
      have htcond : t.cond = Condition.Infected := hteq ▸ hI
      simp [Function.comp, hta, htcond]
    · have hmem_iff : t.id ∈ (getNeighbors l a.pos).map (fun s => s.id) ↔
          isMooreNeighbor a.pos t.pos = true := by
        constructor
        · intro hmm
          obtain ⟨s, hs, hside⟩ := List.mem_map.mp hmm
          obtain ⟨hsl, hsp⟩ := List.mem_filter.mp hs
          have hst : s = t := eq_of_mem_of_id_eq hn hsl htl hside
          exact hst ▸ hsp
        · intro hmm
          exact List.mem_map_of_mem _ (List.mem_filter.mpr ⟨htl, hmm⟩)
      by_cases hnb : isMooreNeighbor a.pos t.pos = true ∧
          t.cond = Condition.Healthy
      · have hmm : t.id ∈ (getNeighbors l a.pos).map (fun s => s.id) :=
          hmem_iff.mpr hnb.1
        simp [Function.comp, hta, hmm, hnb.2, hnb]
      · have hno : ¬ (t.id ∈ (getNeighbors l a.pos).map (fun s => s.id) ∧
            t.cond = Condition.Healthy) := by
          intro hcc
          exact hnb ⟨hmem_iff.mp hcc.1, hcc.2⟩
        have h1 : (if t.id ∈ (getNeighbors l a.pos).map (fun s => s.id) ∧
              t.cond = Condition.Healthy
            then { t with cond := Condition.Infected } else t) = t :=
          if_neg hno
        simp only [Function.comp]
        rw [h1]
        simp [hta, hnb]
  · rw [if_neg hI, if_neg hI]

/-! ## Claim C1: the per-visit transition rule -/

/-- C1: during a step, if the visited agent is `Infected` at the moment of
its visit, every agent on one of the 8 Moore-adjacent cells of its
position that is `Healthy` (Susceptible) at that moment becomes
`Infected`, and the visited agent itself becomes `Dead` (Removed) within
the same visit; every other agent is unchanged.  If the visited agent is
not `Infected`, the visit changes no state. -/
theorem c1_visit_transition : ∀ (l : List Ash_Tree) (aid : Nat)
    (a : Ash_Tree), NodupIds l → l.find? (fun t => t.id == aid) = some a →
    (¬ a.cond = Condition.Infected → visit l aid = l) ∧
    (a.cond = Condition.Infected → visit l aid = l.map (fun t =>
      if t.id = aid then { t with cond := Condition.Dead }
      else if isMooreNeighbor a.pos t.pos = true ∧
          t.cond = Condition.Healthy
        then { t with cond := Condition.Infected } else t)) := by
  intro l aid a hn hfind
  constructor
  · intro hni
    rw [visit_char hn hfind, if_neg hni]
  · intro hi
    rw [visit_char hn hfind, if_pos hi]

/-- Witness for C1 at a concrete three-agent state: agent 0 is Infected at
the origin, agent 1 is an adjacent Healthy neighbor, agent 2 a distant
Healthy agent. -/
theorem c1_visit_transition_witness :
    visit [⟨0, (0, 0), Condition.Infected⟩, ⟨1, (1, 1), Condition.Healthy⟩,
      ⟨2, (3, 0), Condition.Healthy⟩] 0 =
    ([⟨0, (0, 0), Condition.Infected⟩, ⟨1, (1, 1), Condition.Healthy⟩,
      ⟨2, (3, 0), Condition.Healthy⟩] : List Ash_Tree).map (fun t =>
      if t.id = 0 then { t with cond := Condition.Dead }
      else if isMooreNeighbor (0, 0) t.pos = true ∧
          t.cond = Condition.Healthy
        then { t with cond := Condition.Infected } else t) :=
  (c1_visit_transition _ 0 ⟨0, (0, 0), Condition.Infected⟩ (by decide)
    (by decide)).2 rfl

/-! ## Claim C2: does a newly infected agent act in the same step? -/

/-- Counterexample to C2.  Agent 1 is `Healthy` (Susceptible) at the start
of the step.  Under the visitation order `[0, 1]` the Infected agent 0 is
visited first and infects agent 1; when agent 1's own visit comes later in
the same step it is already `Infected`, so it acts: it becomes `Dead`
(Removed) within that same step — the claim says it should still be
`Infected` at the end of the step. -/
theorem c2_counterexample :
    (([⟨0, (0, 0), Condition.Infected⟩, ⟨1, (1, 0), Condition.Healthy⟩] :
        List Ash_Tree).map (fun t => t.cond) =
      [Condition.Infected, Condition.Healthy]) ∧
    ((stepAgents [0, 1]
        [⟨0, (0, 0), Condition.Infected⟩, ⟨1, (1, 0), Condition.Healthy⟩]).map
        (fun t => t.cond) = [Condition.Dead, Condition.Dead]) ∧
    ¬ ((stepAgents [0, 1]
        [⟨0, (0, 0), Condition.Infected⟩, ⟨1, (1, 0), Condition.Healthy⟩]).map
        (fun t => t.cond) = [Condition.Dead, Condition.Infected]) := by
  decide

/-- Amended C2: the agent iteration is snapshotted once per step, but each
agent's condition is read live at its visit.  Hence an agent that was
Susceptible at the start of the step and is infected by an earlier-visited
neighbor does act at its own later visit in the same step: it becomes
Removed, and it infects its own Susceptible Moore neighbors (here `tc`,
adjacent to `tb` but not to the original infecter `ta`). -/
theorem c2_amended_same_step_action : ∀ (l : List Ash_Tree)
    (ta tb tc : Ash_Tree), NodupIds l → ta ∈ l → tb ∈ l → tc ∈ l →
    ta.cond = Condition.Infected → tb.cond = Condition.Healthy →
    tc.cond = Condition.Healthy →
    isMooreNeighbor ta.pos tb.pos = true →
    isMooreNeighbor tb.pos tc.pos = true →
    isMooreNeighbor ta.pos tc.pos = false →
    condOf (stepAgents [ta.id, tb.id] l) tb.id = some Condition.Dead ∧
    condOf (stepAgents [ta.id, tb.id] l) tc.id = some Condition.Infected := by
  intro l ta tb tc hn hta htb htc hca hcb hcc hab hbc hac
  have hab_ne : ta ≠ tb := by
    intro h
    rw [h, hcb] at hca
    cases hca
  have hac_ne : ta ≠ tc := by
    intro h
    rw [h, hcc] at hca
    cases hca
  have hbc_ne : tb ≠ tc := by
    intro h
    rw [h, hac] at hab
    cases hab
  have hidab : ¬ tb.id = ta.id :=
    fun he => hab_ne (eq_of_mem_of_id_eq hn hta htb he.symm)
  have hidac : ¬ tc.id = ta.id :=
    fun he => hac_ne (eq_of_mem_of_id_eq hn hta htc he.symm)
  have hidbc : ¬ tc.id = tb.id :=
    fun he => hbc_ne (eq_of_mem_of_id_eq hn htb htc he.symm)
  have hfind_a : l.find? (fun t => t.id == ta.id) = some ta :=
    find?_of_mem_nodup hn hta
  have h1 : visit l ta.id = l.map (fun t =>
      if t.id = ta.id then { t with cond := Condition.Dead }
      else if isMooreNeighbor ta.pos t.pos = true ∧
          t.cond = Condition.Healthy
        then { t with cond := Condition.Infected } else t) := by
    rw [visit_char hn hfind_a, if_pos hca]
  have hn1 : NodupIds (visit l ta.id) :=
    nodupIds_of_shape (visit_shape l ta.id) hn
  have hgb : (fun t =>
      if t.id = ta.id then { t with cond := Condition.Dead }
      else if isMooreNeighbor ta.pos t.pos = true ∧
          t.cond = Condition.Healthy
        then { t with cond := Condition.Infected } else t) tb =
      { tb with cond := Condition.Infected } := by
    simp only [if_neg hidab, if_pos (And.intro hab hcb)]
  have hgc : (fun t =>
      if t.id = ta.id then { t with cond := Condition.Dead }
      else if isMooreNeighbor ta.pos t.pos = true ∧
          t.cond = Condition.Healthy
        then { t with cond := Condition.Infected } else t) tc = tc := by
    have hno : ¬ (isMooreNeighbor ta.pos tc.pos = true ∧
        tc.cond = Condition.Healthy) := by
      rintro ⟨hct, -⟩
      rw [hac] at hct
      cases hct
    simp only [if_neg hidac, if_neg hno]
  have hmemb1 : ({ tb with cond := Condition.Infected } : Ash_Tree) ∈
      visit l ta.id := by
    rw [h1]
    exact hgb ▸ List.mem_map_of_mem _ htb
  have hmemc1 : tc ∈ visit l ta.id := by
    rw [h1]
    exact hgc ▸ List.mem_map_of_mem _ htc
  have hfind_b : (visit l ta.id).find? (fun t => t.id == tb.id) =
      some { tb with cond := Condition.Infected } :=
    find?_of_mem_nodup hn1 hmemb1
  have h2 : visit (visit l ta.id) tb.id = (visit l ta.id).map (fun t =>
      if t.id = tb.id then { t with cond := Condition.Dead }
      else if isMooreNeighbor tb.pos t.pos = true ∧
          t.cond = Condition.Healthy
        then { t with cond := Condition.Infected } else t) := by
    rw [visit_char hn1 hfind_b, if_pos rfl]
  have hn2 : NodupIds (visit (visit l ta.id) tb.id) :=
    nodupIds_of_shape (visit_shape _ tb.id) hn1
  have hstep : stepAgents [ta.id, tb.id] l = visit (visit l ta.id) tb.id :=
    rfl
  have hgb2 : (fun t =>
      if t.id = tb.id then { t with cond := Condition.Dead }
      else if isMooreNeighbor tb.pos t.pos = true ∧
          t.cond = Condition.Healthy
        then { t with cond := Condition.Infected } else t)
      ({ tb with cond := Condition.Infected } : Ash_Tree) =
      { tb with cond := Condition.Dead } := by
    simp
  have hgc2 : (fun t =>
      if t.id = tb.id then { t with cond := Condition.Dead }
      else if isMooreNeighbor tb.pos t.pos = true ∧
          t.cond = Condition.Healthy
        then { t with cond := Condition.Infected } else t) tc =
      { tc with cond := Condition.Infected } := by
    simp only [if_neg hidbc, if_pos (And.intro hbc hcc)]
  have hmemb2 : ({ tb with cond := Condition.Dead } : Ash_Tree) ∈
      visit (visit l ta.id) tb.id := by
    rw [h2]
    exact hgb2 ▸ List.mem_map_of_mem _ hmemb1
  have hmemc2 : ({ tc with cond := Condition.Infected } : Ash_Tree) ∈
      visit (visit l ta.id) tb.id := by
    rw [h2]
    exact hgc2 ▸ List.mem_map_of_mem _ hmemc1
  constructor
  · rw [hstep]
    exact condOf_of_mem_nodup hn2 hmemb2
  · rw [hstep]
    exact condOf_of_mem_nodup hn2 hmemc2

/-- Witness for the amended C2: three collinear trees at x = 0, 1, 2;
visiting the infected tree 0 then the (newly infected) tree 1 leaves tree
1 Removed and tree 2 Infected within the single step. -/
theorem c2_amended_same_step_action_witness :
    condOf (stepAgents [0, 1]
      [⟨0, (0, 0), Condition.Infected⟩, ⟨1, (1, 0), Condition.Healthy⟩,
        ⟨2, (2, 0), Condition.Healthy⟩]) 1 = some Condition.Dead ∧
    condOf (stepAgents [0, 1]
      [⟨0, (0, 0), Condition.Infected⟩, ⟨1, (1, 0), Condition.Healthy⟩,
        ⟨2, (2, 0), Condition.Healthy⟩]) 2 = some Condition.Infected :=
  c2_amended_same_step_action _ ⟨0, (0, 0), Condition.Infected⟩
    ⟨1, (1, 0), Condition.Healthy⟩ ⟨2, (2, 0), Condition.Healthy⟩
    (by decide) (by decide) (by decide) (by decide) rfl rfl rfl
    (by decide) (by decide) (by decide)

/-! ## Claim C5: transitions are forward-only -/

theorem visit_condStep {l : List Ash_Tree} (hn : NodupIds l) (aid : Nat)
    (i : Nat) (hi : i < l.length) (hi' : i < (visit l aid).length) :
    CondStep (l[i]).cond (((visit l aid)[i]).cond) := by
  cases hfind : l.find? (fun t => t.id == aid) with
  | none =>
    have hv : visit l aid = l := by
      unfold visit
      rw [hfind]
    simp only [hv]
    left
    rfl
  | some a =>
    have hmem_a : a ∈ l := List.mem_of_find?_eq_some hfind
    have haid : a.id = aid := by simpa using List.find?_some hfind
    have hv := visit_char hn hfind
    by_cases hI : a.cond = Condition.Infected
    · rw [if_pos hI] at hv
      simp only [hv, List.getElem_map]
      by_cases h1 : (l[i]).id = aid
      · have hteq : l[i] = a :=
          eq_of_mem_of_id_eq hn (List.getElem_mem hi) hmem_a
            (by rw [h1, haid])
        rw [if_pos h1]
        right
        right
        exact ⟨by rw [hteq, hI], rfl⟩
      · rw [if_neg h1]
        by_cases h2 : isMooreNeighbor a.pos (l[i]).pos = true ∧
            (l[i]).cond = Condition.Healthy
        · rw [if_pos h2]
          right
          left
          exact ⟨h2.2, rfl⟩
        · rw [if_neg h2]
          left
          rfl
    · rw [if_neg hI] at hv
      simp only [hv]
      left
      rfl

theorem stepAgents_dead {l : List Ash_Tree} (hn : NodupIds l)
    (order : List Nat) (i : Nat) (hi : i < l.length)
    (hi' : i < (stepAgents order l).length)
    (hd : (l[i]).cond = Condition.Dead) :
    ((stepAgents order l)[i]).cond = Condition.Dead := by
  induction order generalizing l with
  | nil => exact hd
  | cons a order ih =>
    have hlen : (visit l a).length = l.length :=
      length_of_shape (visit_shape l a)
    have hi2 : i < (visit l a).length := by omega
    have hdead : ((visit l a)[i]).cond = Condition.Dead := by
      have hstep := visit_condStep hn a i hi hi2
      rw [hd] at hstep
      rcases hstep with h' | ⟨h', -⟩ | ⟨h', -⟩
      · exact h'
      · cases h'
      · cases h'
    exact ih (nodupIds_of_shape (visit_shape l a) hn) hi2 hi' hdead

theorem runSteps_trees_length (orders : List (List Nat)) (f : Forest) :
    (runSteps orders f).trees.length = f.trees.length := by
  induction orders generalizing f with
  | nil => rfl
  | cons o rest ih =>
    show (if f.running then runSteps rest (stepForest o f) else f).trees.length
      = f.trees.length
    by_cases hr : f.running
    · rw [if_pos hr, ih]
      exact length_of_shape (stepAgents_shape o f.trees)
    · rw [if_neg hr]

theorem runSteps_dead {f : Forest} (hn : NodupIds f.trees)
    (orders : List (List Nat)) (i : Nat) (hi : i < f.trees.length)
    (hi' : i < (runSteps orders f).trees.length)
    (hd : (f.trees[i]).cond = Condition.Dead) :
    ((runSteps orders f).trees[i]).cond = Condition.Dead := by
  induction orders generalizing f with
  | nil => exact hd
  | cons o rest ih =>
    have hred : runSteps (o :: rest) f =
        if f.running then runSteps rest (stepForest o f) else f := rfl
    by_cases hr : f.running
    · have hr2 : runSteps (o :: rest) f = runSteps rest (stepForest o f) := by
        rw [hred, if_pos hr]
      have hlen : (stepForest o f).trees.length = f.trees.length :=
        length_of_shape (stepAgents_shape o f.trees)
      have hi2 : i < (stepForest o f).trees.length := by omega
      have hi3 : i < (runSteps rest (stepForest o f)).trees.length := by
        rw [runSteps_trees_length]
        omega
      have hdead : ((stepForest o f).trees[i]).cond = Condition.Dead :=
        stepAgents_dead hn o i hi hi2 hd
      have hrec := ih (f := stepForest o f)
        (nodupIds_of_shape (stepAgents_shape o f.trees) hn) hi2 hi3 hdead
      simp only [hr2]
      exact hrec
    · have hr2 : runSteps (o :: rest) f = f := by
        rw [hred, if_neg hr]
      simp only [hr2]
      exact hd

/-- C5: an agent's condition only ever moves forward.  First part: a
single visit changes each agent's condition by at most one forward arrow
(unchanged, Susceptible→Infected, or Infected→Removed) — never backward.
Second part: `Dead` (Removed) is terminal — once an agent is Removed, no
later step of the run changes it. -/
theorem c5_forward_transitions :
    (∀ (l : List Ash_Tree) (aid : Nat), NodupIds l →
      ∀ (i : Nat) (hi : i < l.length) (hi' : i < (visit l aid).length),
        CondStep (l[i]).cond (((visit l aid)[i]).cond)) ∧
    (∀ (f : Forest) (orders : List (List Nat)), NodupIds f.trees →
      ∀ (i : Nat) (hi : i < f.trees.length)
        (hi' : i < (runSteps orders f).trees.length),
        (f.trees[i]).cond = Condition.Dead →
        ((runSteps orders f).trees[i]).cond = Condition.Dead) :=
  ⟨fun _ aid hn i hi hi' => visit_condStep hn aid i hi hi',
   fun _ orders hn i hi hi' hd => runSteps_dead hn orders i hi hi' hd⟩

/-- Witness for C5: a concrete visit step and a concrete two-step run on a
small forest, instantiating both conjuncts. -/
theorem c5_forward_transitions_witness :
    CondStep ((([⟨0, (0, 0), Condition.Infected⟩,
        ⟨1, (1, 0), Condition.Healthy⟩] : List Ash_Tree).get
        ⟨1, by decide⟩).cond)
      (((visit [⟨0, (0, 0), Condition.Infected⟩,
        ⟨1, (1, 0), Condition.Healthy⟩] 0).get ⟨1, by decide⟩).cond) ∧
    (((runSteps [[0, 1], [0, 1]]
        ⟨[⟨0, (5, 5), Condition.Dead⟩, ⟨1, (1, 0), Condition.Infected⟩],
          [], true⟩).trees.get ⟨0, by decide⟩).cond = Condition.Dead) :=
  ⟨c5_forward_transitions.1 _ 0 (by decide) 1 (by decide) (by decide),
   c5_forward_transitions.2
     ⟨[⟨0, (5, 5), Condition.Dead⟩, ⟨1, (1, 0), Condition.Infected⟩],
       [], true⟩ [[0, 1], [0, 1]] (by decide) 0 (by decide) (by decide)
     (by decide)⟩

/-! ## Claim C10: a zero-Infected state is absorbing -/

theorem countType_eq_zero_iff (l : List Ash_Tree) (c : Condition) :
    countType l c = 0 ↔ ∀ t ∈ l, ¬ t.cond = c := by
  induction l with
  | nil => simp [countType]
  | cons t rest ih =>
    by_cases h : t.cond = c
    · simp [countType, h]
    · simp [countType, h, ih]

theorem visit_of_no_infected {l : List Ash_Tree}
    (h : ∀ t ∈ l, ¬ t.cond = Condition.Infected) (aid : Nat) :
    visit l aid = l := by
  unfold visit
  cases hfind : l.find? (fun t => t.id == aid) with
  | none => rfl
  | some a =>
    have hmem : a ∈ l := List.mem_of_find?_eq_some hfind
    show (if a.cond = Condition.Infected
        then setCond (((getNeighbors l a.pos).map (fun t => t.id)).foldl
          spreadTo l) aid Condition.Dead
        else l) = l
    rw [if_neg (h a hmem)]

theorem stepAgents_of_no_infected {l : List Ash_Tree}
    (h : ∀ t ∈ l, ¬ t.cond = Condition.Infected) (order : List Nat) :
    stepAgents order l = l := by
  induction order with
  | nil => rfl
  | cons a order ih =>
    show stepAgents order (visit l a) = l
    rw [visit_of_no_infected h a, ih]

/-- C10: if no agent is Infected, one step leaves every agent unchanged,
appends a history row recording an Infected count of zero together with
the unchanged Susceptible and Removed counts, and (as the termination test
then fires) clears the running flag. -/
theorem c10_zero_infected_absorbing : ∀ (f : Forest) (order : List Nat),
    countType f.trees Condition.Infected = 0 →
    stepForest order f =
      { trees := f.trees,
        history := f.history ++ [(countType f.trees Condition.Healthy, 0,
          countType f.trees Condition.Dead)],
        running := false } := by
  intro f order h0
  have hag : stepAgents order f.trees = f.trees :=
    stepAgents_of_no_infected ((countType_eq_zero_iff _ _).mp h0) order
  simp only [stepForest]
  rw [hag, h0]
  simp

/-- Witness for C10 on a concrete two-agent state with no Infected
agent. -/
theorem c10_zero_infected_absorbing_witness :
    stepForest [0, 1] ⟨[⟨0, (2, 3), Condition.Dead⟩,
        ⟨1, (0, 0), Condition.Healthy⟩], [], true⟩ =
      { trees := (⟨[⟨0, (2, 3), Condition.Dead⟩,
          ⟨1, (0, 0), Condition.Healthy⟩], [], true⟩ : Forest).trees,
        history := (⟨[⟨0, (2, 3), Condition.Dead⟩,
          ⟨1, (0, 0), Condition.Healthy⟩], [], true⟩ : Forest).history ++
          [(countType (⟨[⟨0, (2, 3), Condition.Dead⟩,
            ⟨1, (0, 0), Condition.Healthy⟩], [], true⟩ : Forest).trees
              Condition.Healthy, 0,
            countType (⟨[⟨0, (2, 3), Condition.Dead⟩,
            ⟨1, (0, 0), Condition.Healthy⟩], [], true⟩ : Forest).trees
              Condition.Dead)],
        running := false } :=
  c10_zero_infected_absorbing _ [0, 1] (by decide)

/-! ## Claim C4: history rows sum to the agent total -/

theorem countType_sum (l : List Ash_Tree) :
    countType l Condition.Healthy + countType l Condition.Infected +
      countType l Condition.Dead = l.length := by
  induction l with
  | nil => rfl
  | cons t rest ih =>
    cases h : t.cond <;> simp [countType, h] <;> omega

theorem runSteps_history_sum (orders : List (List Nat)) (f : Forest)
    (n : Nat) (hlen : f.trees.length = n)
    (hhist : ∀ e ∈ f.history, e.1 + e.2.1 + e.2.2 = n) :
    ∀ e ∈ (runSteps orders f).history, e.1 + e.2.1 + e.2.2 = n := by
  induction orders generalizing f with
  | nil => exact hhist
  | cons o rest ih =>
    show ∀ e ∈ (if f.running then runSteps rest (stepForest o f)
      else f).history, e.1 + e.2.1 + e.2.2 = n
    by_cases hr : f.running
    · rw [if_pos hr]
      have hlen' : (stepForest o f).trees.length = n := by
        rw [show (stepForest o f).trees = stepAgents o f.trees from rfl,
          length_of_shape (stepAgents_shape o f.trees)]
        exact hlen
      refine ih (stepForest o f) hlen' ?_
      intro e he
      rcases List.mem_append.mp he with h | h
      · exact hhist e h
      · have he2 : e = (countType (stepAgents o f.trees) Condition.Healthy,
            countType (stepAgents o f.trees) Condition.Infected,
            countType (stepAgents o f.trees) Condition.Dead) := by
          simpa using h
        rw [he2]
        have := countType_sum (stepAgents o f.trees)
        rw [length_of_shape (stepAgents_shape o f.trees), hlen] at this
        exact this
    · rw [if_neg hr]
      exact hhist

theorem forestInit_some {w h : Int} {d : ℚ} {s : List (Int × Int)}
    {f : Forest} (hf : forestInit w h d s = some f) :
    f.trees = mkTrees 0 (s.take (numAgents w h d).toNat) ∧
    f.history = [] ∧ f.running = true := by
  simp only [forestInit] at hf
  split at hf
  · rw [Option.some.injEq] at hf
    rw [← hf]
    exact ⟨rfl, rfl, rfl⟩
  · cases hf

/-- C4: for every run from an initialized model and every recorded history
row, the Healthy (Susceptible), Infected and Dead (Removed) counts sum to
the number of agents created at initialization. -/
theorem c4_counts_sum : ∀ (w h : Int) (d : ℚ) (shuffled : List (Int × Int))
    (f0 : Forest) (orders : List (List Nat)),
    forestInit w h d shuffled = some f0 →
    ∀ e ∈ (runSteps orders f0).history,
      e.1 + e.2.1 + e.2.2 = f0.trees.length := by
  intro w h d shuffled f0 orders hf
  obtain ⟨-, hhist, -⟩ := forestInit_some hf
  refine runSteps_history_sum orders f0 f0.trees.length rfl ?_
  rw [hhist]
  intro e he
  cases he

/-- Witness for C4: a 2×1 full-density run for three budgeted steps; the
single created row `(0, 0, 2)` sums to the agent total. -/
theorem c4_counts_sum_witness :
    ((0 : Nat), (0 : Nat), (2 : Nat)).1 + ((0 : Nat), (0 : Nat), (2 : Nat)).2.1 +
      ((0 : Nat), (0 : Nat), (2 : Nat)).2.2 =
      (⟨mkTrees 0 [((0 : Int), (0 : Int)), ((1 : Int), (0 : Int))], [],
        true⟩ : Forest).trees.length :=
  c4_counts_sum 2 1 1 [((0 : Int), (0 : Int)), ((1 : Int), (0 : Int))]
    ⟨mkTrees 0 [((0 : Int), (0 : Int)), ((1 : Int), (0 : Int))], [], true⟩
    [[0, 1], [0, 1], [0, 1]] (by decide) ((0 : Nat), (0 : Nat), (2 : Nat))
    (by decide)

/-! ## Claim C3: driver-loop termination -/

theorem getLastD_cons {α : Type} (a : α) (l : List α) (d : α) :
    (a :: l).getLastD d = l.getLastD a := by
  cases l <;> simp [List.getLastD]

theorem mem_dropLast_or_getLastD {α : Type} (l : List α) (d x : α)
    (hx : x ∈ l) : x ∈ l.dropLast ∨ x = l.getLastD d := by
  induction l generalizing d with
  | nil => cases hx
  | cons a rest ih =>
    cases rest with
    | nil =>
      rcases List.mem_cons.mp hx with rfl | h
      · right
        simp [List.getLastD]
      · cases h
    | cons b rest' =>
      rcases List.mem_cons.mp hx with rfl | hx'
      · left
        simp [List.dropLast]
      · rcases ih a hx' with h | h
        · left
          rw [show (a :: b :: rest').dropLast = a :: (b :: rest').dropLast
            from rfl]
          exact List.mem_cons_of_mem a h
        · right
          rw [getLastD_cons]
          exact h

theorem stepForest_inv (o : List Nat) (f : Forest) (hr : f.running = true)
    (h1 : ∀ e ∈ f.history.dropLast, e.2.1 ≠ 0)
    (h2 : f.running = false ↔ (f.history.getLastD (0, 1, 0)).2.1 = 0) :
    (∀ e ∈ (stepForest o f).history.dropLast, e.2.1 ≠ 0) ∧
    ((stepForest o f).running = false ↔
      ((stepForest o f).history.getLastD (0, 1, 0)).2.1 = 0) ∧
    (stepForest o f).history.length = f.history.length + 1 := by
  have hhist : (stepForest o f).history = f.history ++
      [(countType (stepAgents o f.trees) Condition.Healthy,
        countType (stepAgents o f.trees) Condition.Infected,
        countType (stepAgents o f.trees) Condition.Dead)] := rfl
  have hrun : (stepForest o f).running =
      if countType (stepAgents o f.trees) Condition.Infected = 0 then false
      else f.running := rfl
  have hlast_ne : ¬ (f.history.getLastD (0, 1, 0)).2.1 = 0 := by
    intro hz
    rw [h2.mpr hz] at hr
    cases hr
  refine ⟨?_, ?_, ?_⟩
  · rw [hhist, List.dropLast_concat]
    intro e he
    rcases mem_dropLast_or_getLastD f.history (0, 1, 0) e he with h | h
    · exact h1 e h
    · rw [h]
      exact hlast_ne
  · rw [hhist, hrun, List.getLastD_concat]
    by_cases hz : countType (stepAgents o f.trees) Condition.Infected = 0
    · rw [if_pos hz]
      simp [hz]
    · rw [if_neg hz, hr]
      simp [hz]
  · rw [hhist, List.length_append]
    rfl

theorem runSteps_termination (orders : List (List Nat)) (f : Forest)
    (h1 : ∀ e ∈ f.history.dropLast, e.2.1 ≠ 0)
    (h2 : f.running = false ↔ (f.history.getLastD (0, 1, 0)).2.1 = 0) :
    (∀ e ∈ (runSteps orders f).history.dropLast, e.2.1 ≠ 0) ∧
    ((runSteps orders f).running = false ↔
      ((runSteps orders f).history.getLastD (0, 1, 0)).2.1 = 0) ∧
    (runSteps orders f).history.length ≤ f.history.length + orders.length ∧
    ((runSteps orders f).history.length < f.history.length + orders.length →
      (runSteps orders f).running = false) := by
  induction orders generalizing f with
  | nil =>
    have hred : runSteps ([] : List (List Nat)) f = f := rfl
    simp only [hred]
    refine ⟨h1, h2, by simp, ?_⟩
    intro hlt
    simp at hlt
  | cons o rest ih =>
    by_cases hr : f.running = true
    · have hred : runSteps (o :: rest) f = runSteps rest (stepForest o f) := by
        show (if f.running then runSteps rest (stepForest o f) else f) = _
        rw [hr]
        simp
      obtain ⟨s1, s2, s3⟩ := stepForest_inv o f hr h1 h2
      obtain ⟨r1, r2, r3, r4⟩ := ih (stepForest o f) s1 s2
      rw [s3] at r3 r4
      simp only [hred]
      refine ⟨r1, r2, by simpa [Nat.add_assoc, Nat.add_comm 1 rest.length]
        using r3, ?_⟩
      intro hlt
      refine r4 ?_
      simp only [List.length_cons] at hlt
      omega
    · have hrf : f.running = false := by
        revert hr
        cases f.running <;> simp
      have hred : runSteps (o :: rest) f = f := by
        show (if f.running then runSteps rest (stepForest o f) else f) = f
        rw [hrf]
        simp
      simp only [hred]
      exact ⟨h1, h2, by omega, fun _ => hrf⟩

/-- C3: from a freshly initialized model, the driver executes at most
`max_steps` steps (one history row is appended per executed step, so the
row count is the number of executed steps and the length of `orders` is
the `max_steps` budget); every non-final executed step has a nonzero
Infected count (so no step executes after the first step whose Infected
count reaches zero); the run is marked finished exactly when the last
executed step recorded an Infected count of zero; and if the driver
stopped before exhausting the budget, then the run was marked finished. -/
theorem c3_driver_termination : ∀ (w h : Int) (d : ℚ)
    (shuffled : List (Int × Int)) (f0 : Forest) (orders : List (List Nat)),
    forestInit w h d shuffled = some f0 →
    (runSteps orders f0).history.length ≤ orders.length ∧
    (∀ e ∈ (runSteps orders f0).history.dropLast, e.2.1 ≠ 0) ∧
    ((runSteps orders f0).running = false ↔
      ((runSteps orders f0).history.getLastD (0, 1, 0)).2.1 = 0) ∧
    ((runSteps orders f0).history.length < orders.length →
      (runSteps orders f0).running = false) := by
  intro w h d shuffled f0 orders hf
  obtain ⟨-, hhist, hrun⟩ := forestInit_some hf
  have h1 : ∀ e ∈ f0.history.dropLast, e.2.1 ≠ 0 := by
    intro e he
    rw [hhist] at he
    cases he
  have h2 : f0.running = false ↔ (f0.history.getLastD (0, 1, 0)).2.1 = 0 := by
    rw [hhist, hrun]
    simp [List.getLastD]
  obtain ⟨r1, r2, r3, r4⟩ := runSteps_termination orders f0 h1 h2
  rw [hhist] at r3 r4
  simp only [List.length_nil, Nat.zero_add] at r3 r4
  exact ⟨r3, r1, r2, r4⟩

/-- Witness for C3: a 2×1 grid at full density; its single run step
infects and removes everything, so the run finishes after one of the
three budgeted steps. -/
theorem c3_driver_termination_witness :
    (runSteps [[0, 1], [0, 1], [0, 1]]
      ⟨[⟨0, (0, 0), Condition.Infected⟩, ⟨1, (1, 0), Condition.Healthy⟩],
        [], true⟩).history.length ≤ 3 ∧
    ((runSteps [[0, 1], [0, 1], [0, 1]]
      ⟨[⟨0, (0, 0), Condition.Infected⟩, ⟨1, (1, 0), Condition.Healthy⟩],
        [], true⟩).running = false ↔
      ((runSteps [[0, 1], [0, 1], [0, 1]]
        ⟨[⟨0, (0, 0), Condition.Infected⟩, ⟨1, (1, 0), Condition.Healthy⟩],
          [], true⟩).history.getLastD (0, 1, 0)).2.1 = 0) ∧
    ((runSteps [[0, 1], [0, 1], [0, 1]]
      ⟨[⟨0, (0, 0), Condition.Infected⟩, ⟨1, (1, 0), Condition.Healthy⟩],
        [], true⟩).history.length < 3 →
      (runSteps [[0, 1], [0, 1], [0, 1]]
        ⟨[⟨0, (0, 0), Condition.Infected⟩, ⟨1, (1, 0), Condition.Healthy⟩],
          [], true⟩).running = false) := by
  obtain ⟨r1, -, r3, r4⟩ := c3_driver_termination 2 1 1 [(0, 0), (1, 0)]
    ⟨[⟨0, (0, 0), Condition.Infected⟩, ⟨1, (1, 0), Condition.Healthy⟩],
      [], true⟩ [[0, 1], [0, 1], [0, 1]] (by decide)
  exact ⟨r1, r3, r4⟩

/-! ## Initialization: claims C6, C7, C8 -/

theorem flatMap_const_length {α β : Type} (xs : List α) (f : α → List β)
    (m : Nat) (hm : ∀ x, (f x).length = m) :
    (xs.flatMap f).length = xs.length * m := by
  induction xs with
  | nil => simp
  | cons a xs ih =>
    simp only [List.flatMap_cons, List.length_append, hm, ih,
      List.length_cons]
    ring

theorem length_allPositions (w h : Int) :
    (allPositions w h).length = w.toNat * h.toNat := by
  unfold allPositions
  rw [flatMap_const_length _ _ h.toNat (fun x => by simp)]
  simp

theorem nodup_allPositions (w h : Int) : (allPositions w h).Nodup := by
  unfold allPositions
  rw [List.nodup_flatMap]
  constructor
  · intro x _
    refine List.Nodup.map ?_ (List.nodup_range _)
    intro y1 y2 hy
    have := congrArg Prod.snd hy
    simpa using this
  · refine List.Pairwise.imp ?_ (List.nodup_range w.toNat)
    intro a b hab
    intro p hpa hpb
    simp only [List.mem_map, List.mem_range] at hpa hpb
    obtain ⟨y1, -, he1⟩ := hpa
    obtain ⟨y2, -, he2⟩ := hpb
    have h1 := congrArg Prod.fst he1
    have h2 := congrArg Prod.fst he2
    simp only at h1 h2
    rw [← h2] at h1
    have : a = b := by exact_mod_cast h1
    exact hab this

theorem mem_allPositions {w h : Int} {p : Int × Int} :
    p ∈ allPositions w h ↔ 0 ≤ p.1 ∧ p.1 < w ∧ 0 ≤ p.2 ∧ p.2 < h := by
  obtain ⟨p1, p2⟩ := p
  unfold allPositions
  simp only [List.mem_flatMap, List.mem_map, List.mem_range]
  constructor
  · rintro ⟨x, hx, y, hy, he⟩
    injection he with he1 he2
    subst he1
    subst he2
    refine ⟨?_, ?_, ?_, ?_⟩ <;> omega
  · rintro ⟨h1, h2, h3, h4⟩
    refine ⟨p1.toNat, by omega, p2.toNat, by omega, ?_⟩
    simp only [Prod.mk.injEq]
    constructor <;> omega

theorem mkTrees_length (i : Nat) (ps : List (Int × Int)) :
    (mkTrees i ps).length = ps.length := by
  induction ps generalizing i with
  | nil => rfl
  | cons p rest ih => simp [mkTrees, ih]

theorem mkTrees_map_pos (i : Nat) (ps : List (Int × Int)) :
    (mkTrees i ps).map (fun t => t.pos) = ps := by
  induction ps generalizing i with
  | nil => rfl
  | cons p rest ih => simp [mkTrees, ih]

theorem mkTrees_cond (i : Nat) (ps : List (Int × Int)) (t : Ash_Tree)
    (ht : t ∈ mkTrees i ps) :
    t.cond = if t.pos.1 = 0 then Condition.Infected
      else Condition.Healthy := by
  induction ps generalizing i with
  | nil => cases ht
  | cons p rest ih =>
    rcases List.mem_cons.mp ht with rfl | hmem
    · rfl
    · exact ih (i + 1) hmem

theorem tdiv_eq_ediv_of_nonneg {a b : Int} (ha : 0 ≤ a) (hb : 0 ≤ b) :
    a.tdiv b = a / b := by
  obtain ⟨m, rfl⟩ := Int.eq_ofNat_of_zero_le ha
  obtain ⟨n, rfl⟩ := Int.eq_ofNat_of_zero_le hb
  rfl

theorem tdiv_nonpos_of_nonpos_of_nonneg {a b : Int} (ha : a ≤ 0)
    (hb : 0 ≤ b) : a.tdiv b ≤ 0 := by
  obtain ⟨n, rfl⟩ := Int.eq_ofNat_of_zero_le hb
  cases a with
  | ofNat m =>
    rw [Int.ofNat_eq_natCast] at ha
    have hm : m = 0 := by omega
    subst hm
    show Int.ofNat (0 / n) ≤ 0
    rw [Nat.zero_div]
    exact le_refl 0
  | negSucc m =>
    show -Int.ofNat (m.succ / n) ≤ 0
    rw [Int.ofNat_eq_natCast]
    exact neg_nonpos.mpr (Int.natCast_nonneg _)

/-- `int(w*h*d)` agrees with the floor of the exact rational product when
the inputs are non-negative (truncation toward zero equals floor there). -/
theorem numAgents_eq_floor (w h : Int) (d : ℚ) (hwh : 0 ≤ w * h)
    (hd : 0 ≤ d) : numAgents w h d = ⌊((w * h : Int) : ℚ) * d⌋ := by
  have hnum : 0 ≤ d.num := Rat.num_nonneg.mpr hd
  have hq : ((w * h : Int) : ℚ) * d =
      ((w * h * d.num : Int) : ℚ) / ((d.den : ℕ) : ℚ) := by
    conv_lhs => rw [← Rat.num_div_den d]
    push_cast
    ring
  rw [numAgents, hq, Rat.floor_intCast_div_natCast]
  exact tdiv_eq_ediv_of_nonneg (mul_nonneg hwh hnum) (by positivity)

/-- Initialization succeeds as soon as the computed agent count fits into
the shuffled position list (the notebook performs no other check): the
first `n` positions are distinct and in bounds because the position list
is a permutation of the grid's cells. -/
theorem forestInit_eq_some (w h : Int) (d : ℚ)
    (shuffled : List (Int × Int))
    (hperm : shuffled.Perm (allPositions w h))
    (hnle : (numAgents w h d).toNat ≤ shuffled.length) :
    forestInit w h d shuffled = some
      { trees := mkTrees 0 (shuffled.take (numAgents w h d).toNat),
        history := [], running := true } := by
  have hnodup : shuffled.Nodup :=
    (hperm.nodup_iff).mpr (nodup_allPositions w h)
  have hchosen : (shuffled.take (numAgents w h d).toNat).Nodup :=
    List.Nodup.sublist (List.take_sublist _ shuffled) hnodup
  have hbounds : (shuffled.take (numAgents w h d).toNat).all
      (inBounds w h) = true := by
    rw [List.all_eq_true]
    intro p hp
    have hps : p ∈ shuffled := (List.take_sublist _ shuffled).subset hp
    have hpA := mem_allPositions.mp (hperm.mem_iff.mp hps)
    simp only [inBounds, Bool.and_eq_true, decide_eq_true_eq]
    exact ⟨⟨⟨hpA.1, hpA.2.1⟩, hpA.2.2.1⟩, hpA.2.2.2⟩
  simp only [forestInit]
  rw [if_pos ⟨hnle, hchosen, hbounds⟩]

/-- C6: for positive dimensions and a density in [0, 1], initialization
succeeds, creates exactly `⌊W·H·D⌋` agents, and no two created agents
share a grid position. -/
theorem c6_init_count : ∀ (w h : Int) (d : ℚ)
    (shuffled : List (Int × Int)),
    0 < w → 0 < h → 0 ≤ d → d ≤ 1 →
    shuffled.Perm (allPositions w h) →
    ∃ f, forestInit w h d shuffled = some f ∧
      (f.trees.length : Int) = ⌊((w * h : Int) : ℚ) * d⌋ ∧
      (f.trees.map (fun t => t.pos)).Nodup := by
  intro w h d shuffled hw hh hd0 hd1 hperm
  have hwh : 0 ≤ w * h := le_of_lt (mul_pos hw hh)
  have hne : numAgents w h d = ⌊((w * h : Int) : ℚ) * d⌋ :=
    numAgents_eq_floor w h d hwh hd0
  have hfl0 : (0 : Int) ≤ numAgents w h d := by
    rw [hne]
    exact Int.floor_nonneg.mpr (mul_nonneg (by exact_mod_cast hwh) hd0)
  have hflW : numAgents w h d ≤ w * h := by
    rw [hne]
    have h1 : ((w * h : Int) : ℚ) * d ≤ ((w * h : Int) : ℚ) :=
      mul_le_of_le_one_right (by exact_mod_cast hwh) hd1
    calc ⌊((w * h : Int) : ℚ) * d⌋ ≤ ⌊((w * h : Int) : ℚ)⌋ :=
          Int.floor_le_floor h1
      _ = w * h := Int.floor_intCast _
  have hlen : shuffled.length = w.toNat * h.toNat := by
    rw [hperm.length_eq, length_allPositions]
  have hcast : ((w.toNat * h.toNat : ℕ) : Int) = w * h := by
    push_cast
    rw [Int.toNat_of_nonneg hw.le, Int.toNat_of_nonneg hh.le]
  have hnle : (numAgents w h d).toNat ≤ shuffled.length := by
    rw [hlen]
    have h2 : ((numAgents w h d).toNat : Int) ≤
        ((w.toNat * h.toNat : ℕ) : Int) := by
      rw [Int.toNat_of_nonneg hfl0, hcast]
      exact hflW
    exact_mod_cast h2
  refine ⟨_, forestInit_eq_some w h d shuffled hperm hnle, ?_, ?_⟩
  · show ((mkTrees 0 (shuffled.take (numAgents w h d).toNat)).length : Int)
      = ⌊((w * h : Int) : ℚ) * d⌋
    rw [mkTrees_length, List.length_take, min_eq_left hnle,
      Int.toNat_of_nonneg hfl0, hne]
  · show ((mkTrees 0 (shuffled.take (numAgents w h d).toNat)).map
      (fun t => t.pos)).Nodup
    rw [mkTrees_map_pos]
    exact List.Nodup.sublist (List.take_sublist _ shuffled)
      ((hperm.nodup_iff).mpr (nodup_allPositions w h))

/-- Witness for C6: a 2×2 grid at density 1/2 with the unshuffled
position list. -/
theorem c6_init_count_witness :
    ∃ f, forestInit 2 2 (mkRat 1 2) (allPositions 2 2) = some f ∧
      (f.trees.length : Int) = ⌊((2 * 2 : Int) : ℚ) * mkRat 1 2⌋ ∧
      (f.trees.map (fun t => t.pos)).Nodup :=
  c6_init_count 2 2 (mkRat 1 2) (allPositions 2 2) (by decide) (by decide)
    (by decide) (by decide) (List.Perm.refl _)

/-- C7: every agent created at initialization starts `Infected` exactly
when its x-coordinate is 0 (the leftmost column), and `Healthy`
(Susceptible) otherwise. -/
theorem c7_initial_states : ∀ (w h : Int) (d : ℚ)
    (shuffled : List (Int × Int)) (f : Forest),
    forestInit w h d shuffled = some f →
    ∀ t ∈ f.trees, (t.cond = Condition.Infected ↔ t.pos.1 = 0) ∧
      (¬ t.pos.1 = 0 → t.cond = Condition.Healthy) := by
  intro w h d shuffled f hf t ht
  obtain ⟨htrees, -, -⟩ := forestInit_some hf
  rw [htrees] at ht
  have hc := mkTrees_cond _ _ t ht
  by_cases hx : t.pos.1 = 0
  · rw [if_pos hx] at hc
    exact ⟨⟨fun _ => hx, fun _ => hc⟩, fun hnx => absurd hx hnx⟩
  · rw [if_neg hx] at hc
    refine ⟨⟨fun hcI => ?_, fun hx0 => absurd hx0 hx⟩, fun _ => hc⟩
    rw [hc] at hcI
    cases hcI

/-- Witness for C7 at a 1×2 grid of density 1: both created trees exist,
the one at x = 0 Infected and the other Healthy; instantiated at the
tree placed second. -/
theorem c7_initial_states_witness :
    ((⟨1, ((0 : Int), (1 : Int)), Condition.Infected⟩ : Ash_Tree).cond =
        Condition.Infected ↔
      (⟨1, ((0 : Int), (1 : Int)), Condition.Infected⟩ : Ash_Tree).pos.1 =
        0) ∧
    (¬ (⟨1, ((0 : Int), (1 : Int)), Condition.Infected⟩ :
        Ash_Tree).pos.1 = 0 →
      (⟨1, ((0 : Int), (1 : Int)), Condition.Infected⟩ : Ash_Tree).cond =
        Condition.Healthy) :=
  c7_initial_states 1 2 1 (allPositions 1 2)
    ⟨[⟨0, ((0 : Int), (0 : Int)), Condition.Infected⟩,
      ⟨1, ((0 : Int), (1 : Int)), Condition.Infected⟩], [], true⟩
    (by decide) ⟨1, ((0 : Int), (1 : Int)), Condition.Infected⟩ (by decide)

/-! ## Claim C8: there is no parameter validation -/

/-- Counterexample to C8: constructing a run with width 0 (a non-positive
dimension) does not fail with any configuration error — initialization
succeeds, the grid/model state is created, and the driver happily runs a
step and returns a history. -/
theorem c8_counterexample :
    forestInit 0 5 (mkRat 1 2) [] = some ⟨[], [], true⟩ ∧
    runModel 0 5 (mkRat 1 2) 3 42 = some [(0, 0, 0)] := by
  decide

/-- Amended C8: the notebook performs no parameter validation at all.
Initialization succeeds exactly when the computed agent count
`int(W·H·D)` fits into the number of grid cells (the only failure is the
position-list index error, which occurs after the grid and scheduler
exist); a non-positive width (with positive height and non-negative
density), a non-positive height (symmetrically), or a non-positive
density yields a successfully constructed model with zero agents; and a
non-positive `max_steps` makes the driver execute zero steps and return
an empty history instead of failing. -/
theorem c8_amended_no_validation : ∀ (w h : Int) (d : ℚ)
    (shuffled : List (Int × Int)), shuffled.Perm (allPositions w h) →
    ((forestInit w h d shuffled).isSome = true ↔
      (numAgents w h d).toNat ≤ w.toNat * h.toNat) ∧
    ((w ≤ 0 ∧ 0 < h ∧ 0 ≤ d) ∨ (h ≤ 0 ∧ 0 < w ∧ 0 ≤ d) ∨
        (d ≤ 0 ∧ 0 < w ∧ 0 < h) →
      forestInit w h d shuffled = some ⟨[], [], true⟩) ∧
    (∀ (ms : Int) (seed : Nat) (hist : List (Nat × Nat × Nat)), ms ≤ 0 →
      runModel w h d ms seed = some hist → hist = []) := by
  intro w h d shuffled hperm
  have hlen : shuffled.length = w.toNat * h.toNat := by
    rw [hperm.length_eq, length_allPositions]
  refine ⟨?_, ?_, ?_⟩
  · constructor
    · intro hs
      rw [← hlen]
      by_contra hgt
      have : forestInit w h d shuffled = none := by
        simp only [forestInit]
        rw [if_neg]
        intro hcond
        exact hgt hcond.1
      rw [this] at hs
      cases hs
    · intro hle
      rw [forestInit_eq_some w h d shuffled hperm (by omega)]
      rfl
  · intro hcase
    have hnum : numAgents w h d ≤ 0 := by
      have hd_num : ∀ (hd : 0 ≤ d), 0 ≤ d.num := fun hd =>
        Rat.num_nonneg.mpr hd
      rcases hcase with ⟨h1, h2, h3⟩ | ⟨h1, h2, h3⟩ | ⟨h1, h2, h3⟩
      · exact tdiv_nonpos_of_nonpos_of_nonneg
          (mul_nonpos_of_nonpos_of_nonneg
            (mul_nonpos_of_nonpos_of_nonneg h1 h2.le) (hd_num h3))
          (by positivity)
      · have : w * h ≤ 0 := mul_nonpos_of_nonneg_of_nonpos h2.le h1
        exact tdiv_nonpos_of_nonpos_of_nonneg
          (mul_nonpos_of_nonpos_of_nonneg this (hd_num h3)) (by positivity)
      · have hdnum : d.num ≤ 0 := Rat.num_nonpos.mpr h1
        have : w * h * d.num ≤ 0 :=
          mul_nonpos_of_nonneg_of_nonpos
            (le_of_lt (mul_pos h2 h3)) hdnum
        exact tdiv_nonpos_of_nonpos_of_nonneg this (by positivity)
    have hzero : (numAgents w h d).toNat = 0 := Int.toNat_of_nonpos hnum
    rw [forestInit_eq_some w h d shuffled hperm (by omega)]
    rw [hzero]
    rfl
  · intro ms seed hist hms hrun
    have hms0 : ms.toNat = 0 := Int.toNat_of_nonpos hms
    simp only [runModel] at hrun
    cases hinit : forestInit w h d
        (shuffleL seed (allPositions w h)).1 with
    | none =>
      rw [hinit] at hrun
      cases hrun
    | some f0 =>
      rw [hinit] at hrun
      simp only [Option.map_some', Option.some.injEq] at hrun
      obtain ⟨-, hhist, -⟩ := forestInit_some hinit
      rw [← hrun, hms0]
      exact hhist

/-- Witness for the amended C8 at width 0, height 5, density 1/2,
`max_steps = -3`. -/
theorem c8_amended_no_validation_witness :
    ((forestInit 0 5 (mkRat 1 2) []).isSome = true ↔
      (numAgents 0 5 (mkRat 1 2)).toNat ≤
        (0 : Int).toNat * (5 : Int).toNat) ∧
    forestInit 0 5 (mkRat 1 2) [] = some ⟨[], [], true⟩ ∧
    ([] : List (Nat × Nat × Nat)) = [] :=
  ⟨(c8_amended_no_validation 0 5 (mkRat 1 2) [] (by decide)).1,
   (c8_amended_no_validation 0 5 (mkRat 1 2) [] (by decide)).2.1
     (Or.inl ⟨by decide, by decide, by decide⟩),
   (c8_amended_no_validation 0 5 (mkRat 1 2) [] (by decide)).2.2
     (-3) 42 [] (by decide) (by decide)⟩

/-! ## Claim C9: reproducibility -/

/-- C9: the embedded run is a pure function of the configuration and the
seed of the modelled random source (which drives both the initial
position shuffle and every per-step visitation order), so two runs with
the same seed and the same parameters produce identical histories. -/
theorem c9_reproducibility : ∀ (w h : Int) (d : ℚ) (maxSteps : Int)
    (seed1 seed2 : Nat), seed1 = seed2 →
    runModel w h d maxSteps seed1 = runModel w h d maxSteps seed2 := by
  intro w h d ms s1 s2 hs
  rw [hs]

/-- Witness for C9 on a concrete 2×2 full-density run. -/
theorem c9_reproducibility_witness :
    runModel 2 2 1 5 7 = runModel 2 2 1 5 7 :=
  c9_reproducibility 2 2 1 5 7 7 rfl

